import Mathlib

/-!
Verification development for the YT-Labs media backend.

The definitions below are a shallow embedding of the three core modules:

* `src/lib/ytdlp-vercel.js` — stream resolution (`getStreamUrls`), playlist
  crawling (`getPlaylistInfo`), format selection (`pickVideo`) and the
  duration formatter (`fmt`) / colon-duration parsing in `parseVideos`;
* `src/app/api/proxy/route.js` (chunked version) — the range relay
  (`GET`, `fetchChunk`, `isAllowedUrl`).

JavaScript strings are embedded as Lean `String`s; the string operations the
code uses (`includes`, `endsWith`, `startsWith`, `split`) are implemented
over the underlying character lists so that all definitions evaluate inside
the kernel.  Network effects are embedded as explicit oracles: a request
handler takes a function describing what each upstream fetch would return,
and additionally records the list of upstream calls it performs.
-/

/-- Test `charsStart pat l`: `pat` is an initial segment of `l` (character lists). -/
def charsStart : List Char → List Char → Bool
  | [], _ => true
  | _ :: _, [] => false
  | p :: ps, c :: cs => p == c && charsStart ps cs

/-- Test `charsHasSub pat l`: `pat` occurs as a contiguous run inside `l`. -/
def charsHasSub (pat : List Char) : List Char → Bool
  | [] => charsStart pat []
  | c :: cs => charsStart pat (c :: cs) || charsHasSub pat cs

/-- JS `s.includes(pat)` for non-empty literal patterns. -/
def jsIncludes (s pat : String) : Bool := charsHasSub pat.data s.data

/-- JS `s.startsWith(pat)`. -/
def jsStartsWith (s pat : String) : Bool := charsStart pat.data s.data

/-- JS `s.endsWith(suffix)`. -/
def jsEndsWith (s suffix : String) : Bool :=
  s.data.drop (s.data.length - suffix.data.length) == suffix.data

/-- JS truthiness of an optional string (`!!s`): `undefined`/`null` and the
empty string are falsy. -/
def jsStrTruthy : Option String → Bool
  | none => false
  | some s => s != ""

/-- JS `Response.ok`: HTTP status in the 200–299 range. -/
def jsOk (status : Nat) : Bool := decide (200 ≤ status ∧ status ≤ 299)

/-- JS `m?.includes(pat)` used as a boolean (optional chaining on a possibly
absent string). -/
def optIncludes : Option String → String → Bool
  | none, _ => false
  | some s, pat => jsIncludes s pat

/-- JS `m?.startsWith(pat)` used as a boolean. -/
def optStarts : Option String → String → Bool
  | none, _ => false
  | some s, pat => jsStartsWith s pat

/-! ### FormatSelector — `pickVideo` (src/lib/ytdlp-vercel.js lines 258–269) -/

/-- One entry of `streamingData.adaptiveFormats` / `streamingData.formats`,
with the fields `pickVideo`/`pickAudio` read.  Absent JSON fields are `none`. -/
structure Format where
  url : Option String
  mimeType : Option String
  height : Option Nat
  bitrate : Option Nat
  deriving DecidableEq

/-- Insertion of one element for `sortBy` (model of `Array.prototype.sort`). -/
def sortInsert (le : α → α → Bool) (a : α) : List α → List α
  | [] => [a]
  | b :: bs => if le a b then a :: b :: bs else b :: sortInsert le a bs

/-- Comparison sort modelling `Array.prototype.sort` with a comparator. -/
def sortBy (le : α → α → Bool) : List α → List α
  | [] => []
  | a :: as => sortInsert le a (sortBy le as)

/-- The comparator `(a, b) => (b.height || 0) - (a.height || 0)`:
descending by height, absent height read as 0. -/
def heightByDesc (a b : Format) : Bool := decide (b.height.getD 0 ≤ a.height.getD 0)

/-- Filter of the first `pickVideo` pass:
`f.url && f.mimeType?.includes("avc1") && (f.height || 0) <= maxH`. -/
def h264Filter (maxH : Nat) (f : Format) : Bool :=
  jsStrTruthy f.url && optIncludes f.mimeType "avc1" && decide (f.height.getD 0 ≤ maxH)

/-- Filter of the `pickVideo` fallback pass:
`f.url && f.mimeType?.startsWith("video/") && (f.height || 0) <= maxH`. -/
def anyVideoFilter (maxH : Nat) (f : Format) : Bool :=
  jsStrTruthy f.url && optStarts f.mimeType "video/" && decide (f.height.getD 0 ≤ maxH)

/-- Selector `pickVideo(formats, maxH)`: best h264 format under the height ceiling,
else best of any video codec, else null. -/
def pickVideo (formats : List Format) (maxH : Nat) : Option Format :=
  match sortBy heightByDesc (formats.filter (h264Filter maxH)) with
  | f :: _ => some f
  | [] => (sortBy heightByDesc (formats.filter (anyVideoFilter maxH))).head?

/-! ### ClientProfile registry and StreamResolver — `getStreamUrls`
(src/lib/ytdlp-vercel.js lines 284–345) -/

/-- An impersonated Innertube client identity (the `client` part of the
context plus the matching request headers carried by each attempt). -/
structure ClientProfile where
  clientName : String
  clientVersion : String
  userAgent : String
  deriving DecidableEq

def IOS_CTX : ClientProfile :=
  ⟨"IOS", "17.33.2",
   "com.google.ios.youtube/17.33.2 (iPhone14,3; U; CPU iOS 15_6 like Mac OS X)"⟩

def ANDROID_CTX : ClientProfile :=
  ⟨"ANDROID", "17.31.35",
   "com.google.android.youtube/17.31.35 (Linux; U; Android 11) gzip"⟩

def TVHTML5_CTX : ClientProfile :=
  ⟨"TVHTML5", "7.20230405.08.00",
   "Mozilla/5.0 (SMART-TV; Linux; Tizen 5.0) AppleWebKit/537.36"⟩

/-- The `attempts` array of `getStreamUrls`: fixed priority order. -/
def streamAttempts : List ClientProfile := [IOS_CTX, ANDROID_CTX, TVHTML5_CTX]

/-- Outcome of one `innertubePost("player", ...)` call: either the fetch/JSON
threw, or a response with `playabilityStatus.status`,
`playabilityStatus.reason`, `streamingData.adaptiveFormats` and
`streamingData.formats` (absent arrays already defaulted to `[]` by the
`|| []` in the source). -/
inductive PlayerOut where
  | threw (msg : String)
  | resp (status : Option String) (reason : Option String)
      (adaptive : List Format) (combined : List Format)
  deriving DecidableEq

/-- Source test `[...adaptive, ...combined].some((f) => !!f.url)`. -/
def hasUrls : PlayerOut → Bool
  | .threw _ => false
  | .resp _ _ adaptive combined => (adaptive ++ combined).any fun f => jsStrTruthy f.url

/-- Source test `status === "OK" || status === "CONTENT_CHECK_REQUIRED"`. -/
def playableStatus : Option String → Bool
  | some st => st == "OK" || st == "CONTENT_CHECK_REQUIRED"
  | none => false

/-- The acceptance test of the attempt loop:
`hasUrls && (status === "OK" || status === "CONTENT_CHECK_REQUIRED")`. -/
def acceptable : PlayerOut → Bool
  | .threw _ => false
  | .resp st reason a c => hasUrls (.resp st reason a c) && playableStatus st

/-- Template rendering of an undefined status (`${status}` in JS). -/
def statusShow : Option String → String
  | some s => s
  | none => "undefined"

/-- The message recorded in `lastErr` when a profile is rejected:
the thrown message, or
`res.playabilityStatus?.reason || clientName + ": " + status`. -/
def rejectReason (p : ClientProfile) : PlayerOut → String
  | .threw msg => msg
  | .resp st reason _ _ =>
    let n := p.clientName
    let stS := statusShow st
    match reason with
    | some r => if r != "" then r else s!"{n}: {stS}"
    | none => s!"{n}: {stS}"

/-- State at the end of the `getStreamUrls` attempt loop: the accepted
response (if any), the last recorded rejection, and the profiles actually
contacted, in order. -/
structure ResolveOut where
  streamData : Option PlayerOut
  lastErr : Option String
  contacted : List ClientProfile
  deriving DecidableEq

/-- The `for (const { ctx, headers } of attempts)` loop of `getStreamUrls`,
with an oracle `o` giving the outcome of the player request issued for each
profile.  On acceptance the loop breaks (profiles after the accepted one are
not contacted). -/
def resolveLoop (o : ClientProfile → PlayerOut) :
    List ClientProfile → Option String → ResolveOut
  | [], le => ⟨none, le, []⟩
  | p :: rest, le =>
    let out := o p
    if acceptable out then ⟨some out, le, [p]⟩
    else
      let r := resolveLoop o rest (some (rejectReason p out))
      ⟨r.streamData, r.lastErr, p :: r.contacted⟩

/-- Resolver `getStreamUrls` up to the end of the attempt loop:
`if (!streamData) throw lastErr || new Error(...)`. -/
def getStreamUrlsResolve (o : ClientProfile → PlayerOut) : Except String PlayerOut :=
  let r := resolveLoop o streamAttempts none
  match r.streamData with
  | some d => .ok d
  | none => .error (r.lastErr.getD "All stream clients failed — video may be unavailable")

/-! ### PlaylistCrawler — `getPlaylistInfo` (src/lib/ytdlp-vercel.js lines 486–555)

One upstream browse page is embedded by what the crawler deterministically
extracts from its JSON tree: `entries` is the result of `parseVideos(data)`
(the deep scan for `playlistVideoRenderer` records) and `contToken` is the
result of `getContinuationToken(data)` (the first well-formed token found in
the deep scan for `continuationItemRenderer`, `none` when no such token
exists).  A continuation fetch is an oracle from tokens to either a page or
a thrown error. -/

/-- One record produced by `parseVideos` for a playlist entry. -/
structure RawVideo where
  videoId : String
  title : String
  durationSeconds : Nat
  author : String
  deriving DecidableEq

/-- One browse response, seen through `parseVideos` / `getContinuationToken`. -/
structure Page where
  entries : List RawVideo
  contToken : Option String
  deriving DecidableEq

/-- The `while (pages < 25)` crawl loop of `getPlaylistInfo`: take the current
page token; stop on no token, an already-used token, a throwing fetch, or an
empty continuation page; otherwise accumulate and continue.  The loop always
returns the accumulated entry list — it has no error outcome. -/
def crawlGo (fetch : String → Except Unit Page) :
    Page → List String → Nat → Nat → List RawVideo → List RawVideo
  | data, used, left, pages, acc =>
    match left with
    | 0 => acc
    | left + 1 =>
      match data.contToken with
      | none => acc
      | some token =>
        if token ∈ used then acc
        else
          match fetch token with
          | .error _ => acc
          | .ok data2 =>
            if data2.entries.isEmpty then acc
            else crawlGo fetch data2 (token :: used) left (pages + 1) (acc ++ data2.entries)

/-- The crawl loop entered with page counter `pages` (the crawl itself starts
it at 0): the `pages < 25` guard of the source is `25 - pages` being a
successor in `crawlGo`, which counts the remaining page budget down. -/
def crawlLoop (fetch : String → Except Unit Page) (data : Page)
    (used : List String) (pages : Nat) (acc : List RawVideo) : List RawVideo :=
  crawlGo fetch data used (25 - pages) pages acc

/-! ### Duration formatting (`fmt`, lines 59–67) and colon-duration parsing
(`parseVideos`, lines 440–447)

JS strings are handled at the character-list level here, with decimal
rendering and `Number(...)`-style reading implemented over `Nat.digits`. -/

/-- The character of one decimal digit (`0 ≤ d ≤ 9` in use). -/
def digChar (d : Nat) : Char := Char.ofNat (d + 48)

/-- Decimal rendering of a natural number: JS `String(n)` as a char list. -/
def natToChars (n : Nat) : List Char :=
  if n = 0 then ['0'] else (Nat.digits 10 n).reverse.map digChar

/-- Numeric value of one digit character. -/
def charVal (c : Char) : Nat := c.toNat - 48

/-- JS `Number(str)` restricted to all-digit strings, as a char list. -/
def charsToNat (l : List Char) : Nat := Nat.ofDigits 10 (l.reverse.map charVal)

/-- JS `String(n).padStart(2, "0")` applied to a rendered number. -/
def padStart2 (l : List Char) : List Char := List.replicate (2 - l.length) '0' ++ l

/-- Formatter `fmt(seconds)` (after its `Math.max(0, Math.floor(Number(seconds) || 0))`
normalisation, which is the identity on naturals): `H:MM:SS` when at least
one hour, else `M:SS`. -/
def fmtChars (seconds : Nat) : List Char :=
  let s := seconds
  let h := s / 3600
  let m := s % 3600 / 60
  let sec := s % 60
  if h > 0 then
    natToChars h ++ ':' :: (padStart2 (natToChars m) ++ ':' :: padStart2 (natToChars sec))
  else
    natToChars m ++ ':' :: padStart2 (natToChars sec)

/-- Formatter `fmt` as a JS string. -/
def fmt (seconds : Nat) : String := String.mk (fmtChars seconds)

/-- JS `str.split(sep)` for a single-character separator, on char lists. -/
def splitOnChar (sep : Char) : List Char → List (List Char)
  | [] => [[]]
  | c :: cs =>
    if c = sep then [] :: splitOnChar sep cs
    else
      match splitOnChar sep cs with
      | [] => [[c]]
      | p :: ps => (c :: p) :: ps

/-- The `lengthText` branch of `parseVideos`:
`parts = txt.split(":").map(Number)`; three parts are read as `H:MM:SS`,
two as `M:SS`, anything else leaves 0. -/
def parseDurationChars (l : List Char) : Nat :=
  match (splitOnChar ':' l).map charsToNat with
  | [a, b, c] => a * 3600 + b * 60 + c
  | [a, b] => a * 60 + b
  | _ => 0

/-! ### Playlist deduplication block of `getPlaylistInfo` (lines 519–538) -/

/-- Playlist title/author metadata taken from the first page. -/
structure PlaylistMeta where
  title : String
  author : String
  deriving DecidableEq

/-- One element of the final `videos` array of `getPlaylistInfo`. -/
structure PlaylistVideo where
  videoId : String
  title : String
  duration : String
  durationSeconds : Nat
  thumbnail : String
  author : String
  index : Nat
  viewCount : Nat
  uploadDate : String
  uploadDateDisplay : String
  deriving DecidableEq

/-- The record pushed into `videos` for an unseen entry `v` at counter `idx`. -/
def mkPlaylistVideo (meta : PlaylistMeta) (v : RawVideo) (idx : Nat) : PlaylistVideo :=
  let vid := v.videoId
  let metaAuthor := meta.author
  { videoId := v.videoId
    title := v.title
    duration := fmt v.durationSeconds
    durationSeconds := v.durationSeconds
    thumbnail := s!"https://i.ytimg.com/vi/{vid}/mqdefault.jpg"
    author := if v.author != "Unknown" then v.author else metaAuthor
    index := idx
    viewCount := 0
    uploadDate := ""
    uploadDateDisplay := "" }

/-- The dedup loop: `seen` set, `idx` counter starting at 1. -/
def dedupGo (meta : PlaylistMeta) : List RawVideo → List String → Nat → List PlaylistVideo
  | [], _, _ => []
  | v :: rest, seen, idx =>
    if v.videoId ∈ seen then dedupGo meta rest seen idx
    else mkPlaylistVideo meta v idx :: dedupGo meta rest (v.videoId :: seen) (idx + 1)

/-- The `// Deduplicate` block of `getPlaylistInfo`, applied to the
concatenation `all` of all parsed pages. -/
def playlistDedup (meta : PlaylistMeta) (all : List RawVideo) : List PlaylistVideo :=
  dedupGo meta all [] 1

/-- The `seen` set as it stands after the dedup loop has processed `l`. -/
def seenAfter : List RawVideo → List String → List String
  | [], seen => seen
  | v :: rest, seen =>
    if v.videoId ∈ seen then seenAfter rest seen
    else seenAfter rest (v.videoId :: seen)

/-! ### RangeRelay — src/app/api/proxy/route.js (chunked version)

The upstream CDN is an oracle: for a chunk request it is indexed by
(position, chunk end, attempt number) and yields either a thrown fetch or an
HTTP response.  Every model below also records the upstream calls it makes
(`UpCall`, carrying the `Range` header value sent, `none` when no `Range`
header is sent) and the backoff sleeps it performs (in milliseconds). -/

/-- Constant `ALLOWED_HOSTS = [".googlevideo.com", ".youtube.com", ".ytimg.com"]`. -/
def ALLOWED_HOSTS : List String := [".googlevideo.com", ".youtube.com", ".ytimg.com"]

/-- Guard `isAllowedUrl(rawUrl)`: the argument is the hostname produced by
`new URL(rawUrl)`, `none` when URL parsing threw (the `catch` branch). -/
def isAllowedUrl (hostname : Option String) : Bool :=
  match hostname with
  | none => false
  | some h => ALLOWED_HOSTS.any fun suffix => jsEndsWith h suffix

/-- Constant `CHUNK_SIZE = 4 * 1024 * 1024`. -/
def CHUNK_SIZE : Nat := 4 * 1024 * 1024

/-- Constant `MAX_CHUNK_RETRIES = 3`. -/
def MAX_CHUNK_RETRIES : Nat := 3

/-- One upstream fetch performed by the proxy, recording the `Range` header
value sent upstream (`none` = no `Range` header). -/
structure UpCall where
  rangeSent : Option String
  deriving DecidableEq

/-- Outcome of one upstream `fetch`: thrown, or a response with a status,
a `content-type` header and body bytes. -/
inductive FetchOut where
  | threw
  | resp (status : Nat) (contentType : Option String) (body : List Nat)
  deriving DecidableEq

/-- Result of `fetchChunk`: bytes, the `null` end-of-stream signal for a 416,
or a propagated error (a rethrown fetch error or the thrown `CDN error`). -/
inductive ChunkResult where
  | ok (bytes : List Nat)
  | eof
  | err
  deriving DecidableEq

/-- One `fetchChunk` outcome together with its upstream calls and backoff sleeps. -/
structure FetchChunkOut where
  result : ChunkResult
  calls : List UpCall
  sleeps : List Nat
  deriving DecidableEq

/-- A transient failure in the sense of `fetchChunk`: the fetch threw, or the
response status is a server error (`status >= 500`). -/
def isTransient : FetchOut → Bool
  | .threw => true
  | .resp st _ _ => decide (500 ≤ st)

/-- Recursion worker for `fetchChunk`.  `retriesLeft` is
`MAX_CHUNK_RETRIES - attempt`, so the `attempt < MAX_CHUNK_RETRIES` guard of
the source is exactly `retriesLeft` being a successor. -/
def fetchChunkGo (o : Nat → FetchOut) (start endB : Nat) :
    Nat → Nat → FetchChunkOut
  | retriesLeft, attempt =>
    let call : UpCall := ⟨some s!"bytes={start}-{endB}"⟩
    match o attempt with
    | .threw =>
      match retriesLeft with
      | r + 1 =>
        let rest := fetchChunkGo o start endB r (attempt + 1)
        ⟨rest.result, call :: rest.calls, 500 * attempt :: rest.sleeps⟩
      | 0 => ⟨.err, [call], []⟩
    | .resp status _ body =>
      if status = 416 then ⟨.eof, [call], []⟩
      else if !(jsOk status) && status != 206 then
        match retriesLeft with
        | r + 1 =>
          if 500 ≤ status then
            let rest := fetchChunkGo o start endB r (attempt + 1)
            ⟨rest.result, call :: rest.calls, 500 * attempt :: rest.sleeps⟩
          else ⟨.err, [call], []⟩
        | 0 => ⟨.err, [call], []⟩
      else ⟨.ok body, [call], []⟩

/-- Worker `fetchChunk(targetUrl, start, end, attempt)` with the oracle `o` giving
the outcome of the fetch issued at each attempt number.  A thrown fetch or a
5xx response is retried (after `sleep(500 * attempt)`) while
`attempt < MAX_CHUNK_RETRIES`; a 416 becomes the `null` end signal; any other
non-ok non-206 status throws. -/
def fetchChunk (o : Nat → FetchOut) (start endB attempt : Nat) : FetchChunkOut :=
  fetchChunkGo o start endB (MAX_CHUNK_RETRIES - attempt) attempt

/-- The chunk end byte computed by the streaming loop:
`end !== null ? Math.min(pos + CHUNK_SIZE - 1, end) : pos + CHUNK_SIZE - 1`. -/
def chunkEndCalc (endB : Option Nat) (pos : Nat) : Nat :=
  match endB with
  | some e => min (pos + CHUNK_SIZE - 1) e
  | none => pos + CHUNK_SIZE - 1

/-- How the relay output stream ended: `controller.close()`,
`controller.error(err)`, or the fuel bound of the embedding was reached
(never the case in the theorems below, which supply enough fuel). -/
inductive RelayStatus where
  | closed
  | errored
  | fuelOut
  deriving DecidableEq

/-- Result of the relay streaming loop: the bytes enqueued on the output
stream in order, the upstream calls made, the sleeps performed, and how the
stream ended. -/
structure RelayOut where
  emitted : List Nat
  calls : List UpCall
  sleeps : List Nat
  status : RelayStatus
  deriving DecidableEq

/-- The `ReadableStream` pull loop of the chunked proxy `GET`: fetch
`[pos, chunkEnd]` via `fetchChunk` (fresh attempt counter 1 for every chunk),
stop cleanly on the 416 end signal or an empty chunk, enqueue and advance
otherwise, and stop after a chunk that reaches the requested end or comes
back shorter than `CHUNK_SIZE`. -/
def relayLoop (o : Nat → Nat → Nat → FetchOut) (endB : Option Nat) :
    Nat → Nat → RelayOut
  | 0, _ => ⟨[], [], [], .fuelOut⟩
  | fuel + 1, pos =>
    let chunkEnd := chunkEndCalc endB pos
    let fc := fetchChunk (fun a => o pos chunkEnd a) pos chunkEnd 1
    match fc.result with
    | .err => ⟨[], fc.calls, fc.sleeps, .errored⟩
    | .eof => ⟨[], fc.calls, fc.sleeps, .closed⟩
    | .ok chunk =>
      if chunk.length = 0 then ⟨[], fc.calls, fc.sleeps, .closed⟩
      else
        let pos2 := pos + chunk.length
        let stop :=
          (match endB with
           | some e => decide (e < pos2)
           | none => false) || decide (chunk.length < CHUNK_SIZE)
        if stop then ⟨chunk, fc.calls, fc.sleeps, .closed⟩
        else
          let rest := relayLoop o endB fuel pos2
          ⟨chunk ++ rest.emitted, fc.calls ++ rest.calls, fc.sleeps ++ rest.sleeps, rest.status⟩

/-- An ideally behaving CDN serving the byte list `res`: a ranged request for
`[start, endB]` returns HTTP 206 with exactly the requested window clamped to
the end of the resource, and 416 when `start` is past the end. -/
def idealChunkO (res : List Nat) : Nat → Nat → Nat → FetchOut :=
  fun start endB _attempt =>
    if res.length ≤ start then .resp 416 none []
    else .resp 206 none ((res.drop start).take (endB + 1 - start))

/-- The response the proxy `GET` hands back (headers it sets plus the body
bytes streamed). -/
structure ProxyResponse where
  status : Nat
  contentType : Option String
  contentLength : Option Int
  contentRange : Option String
  acceptRanges : Bool
  body : List Nat
  streamEnd : RelayStatus
  deriving DecidableEq

/-- Either a `NextResponse.json({ error }, { status })` or a streamed
`Response`. -/
inductive GETResult where
  | jsonError (status : Nat)
  | success (r : ProxyResponse)
  deriving DecidableEq

/-- The proxy route handler `GET` (chunked version), returning the response
and the list of upstream calls performed, in order.

Inputs embed the request and the upstream world: `targetUrl` is the `url`
query parameter; `urlHost` is the hostname `new URL(targetUrl)` yields
(`none` when parsing throws); `browserRange` is the result of matching
`/bytes=(\d+)-(\d*)/` against the caller Range header (`none` when the
header is absent or does not match, `some (s, none)` when the second capture
is empty); `thumbUp` is the upstream outcome for the thumbnail pass-through
fetch; `probeTotalSize`/`probeContentType` are what `probeStream` reports
(its single `bytes=0-0` call is recorded); `chunkO` answers the ranged chunk
fetches. -/
def proxyGET (targetUrl : Option String) (urlHost : Option String)
    (browserRange : Option (Nat × Option Nat)) (thumbUp : FetchOut)
    (probeTotalSize : Option Nat) (probeContentType : String)
    (chunkO : Nat → Nat → Nat → FetchOut) (fuel : Nat) :
    GETResult × List UpCall :=
  match targetUrl with
  | none => (.jsonError 400, [])
  | some url =>
    if !(isAllowedUrl urlHost) then (.jsonError 403, [])
    else if jsIncludes url "ytimg.com" || jsIncludes url "/vi/" then
      match thumbUp with
      | .threw => (.jsonError 500, [⟨none⟩])
      | .resp st ct body =>
        if !(jsOk st) then (.jsonError st, [⟨none⟩])
        else (.success ⟨st, ct, none, none, false, body, .closed⟩, [⟨none⟩])
    else
      let tsVal := probeTotalSize.getD 0
      let tsTruthy : Bool := tsVal != 0
      let rangeInfo : Option (Nat × Nat) :=
        match browserRange with
        | some (s, eOpt) =>
          if tsTruthy then some (s, eOpt.getD (tsVal - 1)) else none
        | none => none
      match rangeInfo with
      | some (rS, rE) =>
        let out := relayLoop chunkO (some rE) fuel rS
        (.success ⟨206, some probeContentType, some ((rE : Int) - (rS : Int) + 1),
            some s!"bytes {rS}-{rE}/{tsVal}", tsTruthy, out.emitted, out.status⟩,
         ⟨some "bytes=0-0"⟩ :: out.calls)
      | none =>
        let endB : Option Nat := if tsTruthy then some (tsVal - 1) else none
        let out := relayLoop chunkO endB fuel 0
        (.success ⟨200, some probeContentType,
            if tsTruthy then some (tsVal : Int) else none,
            none, tsTruthy, out.emitted, out.status⟩,
         ⟨some "bytes=0-0"⟩ :: out.calls)

/-! ### Concrete instances used by the witness theorems below -/

/-- A profile oracle where IOS and ANDROID are rejected and TVHTML5 succeeds. -/
def c1Oracle : ClientProfile → PlayerOut := fun p =>
  if p.clientName == "TVHTML5" then
    .resp (some "OK") none [⟨some "https://cdn.example/v", some "video/mp4; codecs=avc1.4d401f", some 720, none⟩] []
  else
    .resp (some "LOGIN_REQUIRED") (some "Sign in to confirm you are not a bot") [] []

def c2Entry : RawVideo := ⟨"vid2", "Two", 10, "A"⟩

/-- A continuation page that hands back its own token again (a repeat). -/
def c2Page2 : Page := ⟨[c2Entry], some "tokA"⟩

def c2Page1 : Page := ⟨[], some "tokA"⟩

def c2Fetch : String → Except Unit Page := fun t =>
  if t == "tokA" then .ok c2Page2 else .error ()

def c6Formats : List Format :=
  [⟨some "u", some "video/mp4; codecs=avc1.640028", some 1080, none⟩,
   ⟨some "u2", some "video/mp4; codecs=avc1.4d401f", some 720, none⟩]

def c6Picked : Format := ⟨some "u2", some "video/mp4; codecs=avc1.4d401f", some 720, none⟩

/-- A chunk-attempt oracle: the first attempt throws, the second succeeds. -/
def c8Oracle : Nat → FetchOut := fun a => if a = 1 then .threw else .resp 200 none [7]

/-- An upstream that answers every ranged chunk request with HTTP 416. -/
def c4Oracle : Nat → Nat → Nat → FetchOut := fun _ _ _ => .resp 416 none []

def c3Res : List Nat := [10, 11, 12, 13, 14]

def c3Url : String := "https://rr1---sn-x.googlevideo.com/videoplayback"

def c3Host : String := "rr1---sn-x.googlevideo.com"

/-! ## Theorems -/

theorem mem_sortInsert {α : Type _} {le : α → α → Bool} {x a : α} :
    ∀ {l : List α}, x ∈ sortInsert le a l ↔ x = a ∨ x ∈ l
  | [] => by simp [sortInsert]
  | b :: bs => by
    cases hle : le a b with
    | true => simp [sortInsert, hle]
    | false =>
      simp only [sortInsert, hle, Bool.false_eq_true, if_false, List.mem_cons,
        mem_sortInsert (l := bs)]
      tauto

theorem mem_sortBy {α : Type _} {le : α → α → Bool} {x : α} :
    ∀ {l : List α}, x ∈ sortBy le l ↔ x ∈ l
  | [] => by simp [sortBy]
  | b :: bs => by
    simp only [sortBy, mem_sortInsert, List.mem_cons, mem_sortBy (l := bs)]

/-- C6: for every list of format descriptors and every quality ceiling, the
video selector never returns a descriptor whose height exceeds the ceiling
(absent heights are read as 0, as in the source). -/
theorem pickVideo_height_le (formats : List Format) (maxH : Nat) (f : Format)
    (h : pickVideo formats maxH = some f) :
    f.height.getD 0 ≤ maxH ∧ ∀ hv, f.height = some hv → hv ≤ maxH := by
  have main : f.height.getD 0 ≤ maxH := by
    unfold pickVideo at h
    cases hc : sortBy heightByDesc (formats.filter (h264Filter maxH)) with
    | cons a as =>
      rw [hc] at h
      simp only [] at h
      cases h
      have ha : f ∈ sortBy heightByDesc (formats.filter (h264Filter maxH)) := by
        rw [hc]; exact List.mem_cons_self f as
      have hx := (List.mem_filter.mp (mem_sortBy.mp ha)).2
      simp only [h264Filter, Bool.and_eq_true, decide_eq_true_eq] at hx
      exact hx.2
    | nil =>
      rw [hc] at h
      simp only [] at h
      cases hc2 : sortBy heightByDesc (formats.filter (anyVideoFilter maxH)) with
      | nil => rw [hc2] at h; cases h
      | cons b bs =>
        rw [hc2] at h
        simp only [List.head?] at h
        cases h
        have hb : f ∈ sortBy heightByDesc (formats.filter (anyVideoFilter maxH)) := by
          rw [hc2]; exact List.mem_cons_self f bs
        have hx := (List.mem_filter.mp (mem_sortBy.mp hb)).2
        simp only [anyVideoFilter, Bool.and_eq_true, decide_eq_true_eq] at hx
        exact hx.2
  refine ⟨main, fun hv hhv => ?_⟩
  simpa [hhv] using main

theorem pickVideo_height_le_witness :
    pickVideo c6Formats 720 = some c6Picked ∧ c6Picked.height.getD 0 ≤ 720 :=
  ⟨by decide, (pickVideo_height_le c6Formats 720 c6Picked (by decide)).1⟩

/-- C5: a relay request whose URL hostname is not on the CDN allow-list is
answered with the 403 error response, and the empty upstream-call trace shows
that no network call is made (hence nothing is retried). -/
theorem proxy_disallowed_host (url : String) (urlHost : Option String)
    (browserRange : Option (Nat × Option Nat)) (thumbUp : FetchOut)
    (probeTotalSize : Option Nat) (probeContentType : String)
    (chunkO : Nat → Nat → Nat → FetchOut) (fuel : Nat)
    (h : isAllowedUrl urlHost = false) :
    proxyGET (some url) urlHost browserRange thumbUp probeTotalSize probeContentType
      chunkO fuel = (.jsonError 403, []) := by
  simp [proxyGET, h]

theorem proxy_disallowed_host_witness :
    proxyGET (some "https://evil.example.com/payload") (some "evil.example.com") none
      .threw none "x" (fun _ _ _ => .threw) 1 = (.jsonError 403, []) :=
  proxy_disallowed_host _ _ _ _ _ _ _ _ (by decide)

/-- C10: an allow-listed relay URL containing `ytimg.com` or `/vi/` takes the
thumbnail pass-through: exactly one upstream fetch is made, with no `Range`
header forwarded (and no size probe), and the response carries the upstream
status and body with no `Content-Range` and no `Accept-Ranges`. -/
theorem proxy_thumbnail_passthrough (url host : String)
    (browserRange : Option (Nat × Option Nat)) (thumbUp : FetchOut)
    (probeTotalSize : Option Nat) (probeContentType : String)
    (chunkO : Nat → Nat → Nat → FetchOut) (fuel : Nat)
    (hallow : isAllowedUrl (some host) = true)
    (hthumb : (jsIncludes url "ytimg.com" || jsIncludes url "/vi/") = true) :
    (proxyGET (some url) (some host) browserRange thumbUp probeTotalSize
        probeContentType chunkO fuel).2 = [⟨none⟩] ∧
    (∀ st ct body, thumbUp = .resp st ct body → jsOk st = true →
      (proxyGET (some url) (some host) browserRange thumbUp probeTotalSize
          probeContentType chunkO fuel).1 =
        .success ⟨st, ct, none, none, false, body, .closed⟩) ∧
    (thumbUp = .threw →
      (proxyGET (some url) (some host) browserRange thumbUp probeTotalSize
          probeContentType chunkO fuel).1 = .jsonError 500) := by
  refine ⟨?_, ?_, ?_⟩
  · cases thumbUp with
    | threw => simp [proxyGET, hallow, hthumb]
    | resp st ct body =>
      by_cases hok : jsOk st = true
      · simp [proxyGET, hallow, hthumb, hok]
      · rw [Bool.not_eq_true] at hok
        simp [proxyGET, hallow, hthumb, hok]
  · intro st ct body hresp hok
    subst hresp
    simp [proxyGET, hallow, hthumb, hok]
  · intro hthrew
    subst hthrew
    simp [proxyGET, hallow, hthumb]

theorem proxy_thumbnail_passthrough_witness :
    (proxyGET (some "https://i.ytimg.com/vi/abc/mqdefault.jpg") (some "i.ytimg.com")
        (some (0, some 99)) (.resp 200 (some "image/jpeg") [9, 8, 7]) (some 5) "x"
        (fun _ _ _ => .threw) 3).2 = [⟨none⟩] ∧
    (proxyGET (some "https://i.ytimg.com/vi/abc/mqdefault.jpg") (some "i.ytimg.com")
        (some (0, some 99)) (.resp 200 (some "image/jpeg") [9, 8, 7]) (some 5) "x"
        (fun _ _ _ => .threw) 3).1 =
      .success ⟨200, some "image/jpeg", none, none, false, [9, 8, 7], .closed⟩ := by
  have h := proxy_thumbnail_passthrough "https://i.ytimg.com/vi/abc/mqdefault.jpg"
    "i.ytimg.com" (some (0, some 99)) (.resp 200 (some "image/jpeg") [9, 8, 7]) (some 5) "x"
    (fun _ _ _ => .threw) 3 (by decide) (by decide)
  exact ⟨h.1, h.2.1 200 (some "image/jpeg") [9, 8, 7] rfl (by decide)⟩

theorem resolveLoop_accept (o : ClientProfile → PlayerOut) :
    ∀ (ps : List ClientProfile) (le : Option String) (i : Nat) (hi : i < ps.length),
      (∀ j (hj : j < ps.length), j < i → acceptable (o ps[j]) = false) →
      acceptable (o ps[i]) = true →
      (resolveLoop o ps le).streamData = some (o ps[i]) ∧
      (resolveLoop o ps le).contacted = ps.take (i + 1)
  | [], _le, i, hi => by simp at hi
  | p :: rest, le, 0, hi => by
    intro _ hacc
    simp only [List.getElem_cons_zero] at hacc
    simp [resolveLoop, hacc]
  | p :: rest, le, i + 1, hi => by
    intro hfail hacc
    have h0 : acceptable (o p) = false := by
      have := hfail 0 (by simp) (Nat.succ_pos i)
      simpa using this
    simp only [List.getElem_cons_succ] at hacc ⊢
    have ih := resolveLoop_accept o rest (some (rejectReason p (o p))) i
      (by simpa using Nat.lt_of_succ_lt_succ hi)
      (fun j hj hji => by
        have := hfail (j + 1) (by simpa using Nat.succ_lt_succ hj) (Nat.succ_lt_succ hji)
        simpa using this)
      hacc
    simp [resolveLoop, h0, ih.1, ih.2]

theorem resolveLoop_allfail (o : ClientProfile → PlayerOut) :
    ∀ (ps : List ClientProfile) (le : Option String),
      (∀ p ∈ ps, acceptable (o p) = false) →
      (resolveLoop o ps le).streamData = none ∧
      (resolveLoop o ps le).contacted = ps ∧
      (resolveLoop o ps le).lastErr =
        ps.foldl (fun _a p => some (rejectReason p (o p))) le
  | [], le => by intro _; simp [resolveLoop]
  | p :: rest, le => by
    intro hall
    have h0 : acceptable (o p) = false := hall p (List.mem_cons_self p rest)
    have ih := resolveLoop_allfail o rest (some (rejectReason p (o p)))
      (fun q hq => hall q (List.mem_cons_of_mem p hq))
    simp [resolveLoop, h0, ih.1, ih.2.1, ih.2.2]

/-- C1: the resolver tries the profiles in the fixed order IOS, ANDROID,
TVHTML5; the first profile whose response is playable and carries a usable
url is accepted, the loop stops there (the contacted list is exactly the
profiles up to and including the accepted one), and if all three profiles
fail the resolver raises the last recorded rejection reason (that of
TVHTML5, the final profile). -/
theorem getStreamUrls_profile_priority (o : ClientProfile → PlayerOut) :
    (∀ i (hi : i < streamAttempts.length),
        (∀ j (hj : j < streamAttempts.length), j < i →
            acceptable (o streamAttempts[j]) = false) →
        acceptable (o streamAttempts[i]) = true →
        getStreamUrlsResolve o = .ok (o streamAttempts[i]) ∧
        (resolveLoop o streamAttempts none).contacted = streamAttempts.take (i + 1)) ∧
    ((∀ p ∈ streamAttempts, acceptable (o p) = false) →
        getStreamUrlsResolve o = .error (rejectReason TVHTML5_CTX (o TVHTML5_CTX)) ∧
        (resolveLoop o streamAttempts none).contacted = streamAttempts) := by
  constructor
  · intro i hi hfail hacc
    have h := resolveLoop_accept o streamAttempts none i hi hfail hacc
    refine ⟨?_, h.2⟩
    simp only [getStreamUrlsResolve, h.1]
  · intro hall
    have h := resolveLoop_allfail o streamAttempts none hall
    refine ⟨?_, h.2.1⟩
    simp only [getStreamUrlsResolve, h.1, h.2.2]
    simp [streamAttempts]

theorem getStreamUrls_profile_priority_witness :
    getStreamUrlsResolve c1Oracle = .ok (c1Oracle TVHTML5_CTX) ∧
    (resolveLoop c1Oracle streamAttempts none).contacted = streamAttempts := by
  have h := (getStreamUrls_profile_priority c1Oracle).1 2 (by decide) (by decide) (by decide)
  exact ⟨h.1, h.2⟩

/-- C2: the crawl loop stops and returns the already-accumulated entries as
its ordinary return value whenever the current page has no continuation
token, the token was already used in this crawl, or the fetch for it throws;
and a repeated token (a continuation page handing back the token that
fetched it) ends the crawl right after that page instead of looping.  The
loop has no error outcome at all: its result type is just the entry list. -/
theorem crawl_stops_gracefully (fetch : String → Except Unit Page) (data : Page)
    (used : List String) (pages : Nat) (acc : List RawVideo) :
    (data.contToken = none → crawlLoop fetch data used pages acc = acc) ∧
    (∀ t, data.contToken = some t → t ∈ used →
        crawlLoop fetch data used pages acc = acc) ∧
    (∀ t, data.contToken = some t → fetch t = .error () →
        crawlLoop fetch data used pages acc = acc) ∧
    (∀ t data2, pages < 25 → data.contToken = some t → t ∉ used →
        fetch t = .ok data2 → data2.contToken = some t → data2.entries ≠ [] →
        crawlLoop fetch data used pages acc = acc ++ data2.entries) := by
  refine ⟨?_, ?_, ?_, ?_⟩
  · intro hnone
    cases hl : 25 - pages with
    | zero => simp [crawlLoop, crawlGo, hl]
    | succ l => simp [crawlLoop, crawlGo, hl, hnone]
  · intro t ht hmem
    cases hl : 25 - pages with
    | zero => simp [crawlLoop, crawlGo, hl]
    | succ l => simp [crawlLoop, crawlGo, hl, ht, hmem]
  · intro t ht herr
    cases hl : 25 - pages with
    | zero => simp [crawlLoop, crawlGo, hl]
    | succ l =>
      by_cases hmem : t ∈ used
      · simp [crawlLoop, crawlGo, hl, ht, hmem]
      · simp [crawlLoop, crawlGo, hl, ht, hmem, herr]
  · intro t data2 hpages ht hmem hok ht2 hne
    obtain ⟨l, hl⟩ : ∃ l, 25 - pages = l + 1 := ⟨24 - pages, by omega⟩
    have hie : data2.entries.isEmpty = false := by
      cases he : data2.entries with
      | nil => exact absurd he hne
      | cons a as => rfl
    have hstep : crawlGo fetch data2 (t :: used) l (pages + 1) (acc ++ data2.entries) =
        acc ++ data2.entries := by
      cases l with
      | zero => simp [crawlGo]
      | succ l2 => simp [crawlGo, ht2, List.mem_cons]
    simp [crawlLoop, crawlGo, hl, ht, hmem, hok, hie, hstep]

theorem crawl_stops_gracefully_witness :
    crawlLoop c2Fetch c2Page1 [] 0 [] = [] ++ c2Page2.entries := by
  exact (crawl_stops_gracefully c2Fetch c2Page1 [] 0 []).2.2.2 "tokA" c2Page2
    (by decide) (by decide) (by decide) (by simp [c2Fetch]) (by decide) (by decide)

theorem dedupGo_skip (meta : PlaylistMeta) {v : RawVideo} {seen : List String}
    (rest : List RawVideo) (idx : Nat) (hv : v.videoId ∈ seen) :
    dedupGo meta (v :: rest) seen idx = dedupGo meta rest seen idx := by
  simp only [dedupGo]
  rw [if_pos hv]

theorem dedupGo_keep (meta : PlaylistMeta) {v : RawVideo} {seen : List String}
    (rest : List RawVideo) (idx : Nat) (hv : v.videoId ∉ seen) :
    dedupGo meta (v :: rest) seen idx =
      mkPlaylistVideo meta v idx :: dedupGo meta rest (v.videoId :: seen) (idx + 1) := by
  simp only [dedupGo]
  rw [if_neg hv]

theorem seenAfter_skip {v : RawVideo} {seen : List String} (rest : List RawVideo)
    (hv : v.videoId ∈ seen) : seenAfter (v :: rest) seen = seenAfter rest seen := by
  simp only [seenAfter]
  rw [if_pos hv]

theorem seenAfter_keep {v : RawVideo} {seen : List String} (rest : List RawVideo)
    (hv : v.videoId ∉ seen) :
    seenAfter (v :: rest) seen = seenAfter rest (v.videoId :: seen) := by
  simp only [seenAfter]
  rw [if_neg hv]

theorem dedupGo_ids (meta : PlaylistMeta) :
    ∀ (l : List RawVideo) (seen : List String) (idx : Nat),
      ((dedupGo meta l seen idx).map PlaylistVideo.videoId).Nodup ∧
      ∀ x ∈ (dedupGo meta l seen idx).map PlaylistVideo.videoId, x ∉ seen
  | [], seen, idx => by simp [dedupGo]
  | v :: rest, seen, idx => by
    by_cases hv : v.videoId ∈ seen
    · rw [dedupGo_skip meta rest idx hv]
      exact dedupGo_ids meta rest seen idx
    · have ih := dedupGo_ids meta rest (v.videoId :: seen) (idx + 1)
      rw [dedupGo_keep meta rest idx hv]
      have hvid : (mkPlaylistVideo meta v idx).videoId = v.videoId := rfl
      constructor
      · simp only [List.map_cons, List.nodup_cons, hvid]
        exact ⟨fun hmem => ih.2 _ hmem (List.mem_cons_self _ _), ih.1⟩
      · intro x hx hxseen
        simp only [List.map_cons, List.mem_cons, hvid] at hx
        rcases hx with rfl | hx
        · exact hv hxseen
        · exact ih.2 x hx (List.mem_cons_of_mem _ hxseen)

theorem range1_succ (s n : Nat) : List.range' s (n + 1) = s :: List.range' (s + 1) n := rfl

theorem dedupGo_index (meta : PlaylistMeta) :
    ∀ (l : List RawVideo) (seen : List String) (idx : Nat),
      (dedupGo meta l seen idx).map PlaylistVideo.index =
        List.range' idx (dedupGo meta l seen idx).length
  | [], seen, idx => by simp [dedupGo]
  | v :: rest, seen, idx => by
    by_cases hv : v.videoId ∈ seen
    · rw [dedupGo_skip meta rest idx hv]
      exact dedupGo_index meta rest seen idx
    · rw [dedupGo_keep meta rest idx hv]
      have ih := dedupGo_index meta rest (v.videoId :: seen) (idx + 1)
      simp only [List.map_cons, List.length_cons, range1_succ]
      rw [ih]
      rfl

theorem dedupGo_append (meta : PlaylistMeta) :
    ∀ (l1 l2 : List RawVideo) (seen : List String) (idx : Nat),
      dedupGo meta (l1 ++ l2) seen idx =
        dedupGo meta l1 seen idx ++
          dedupGo meta l2 (seenAfter l1 seen) (idx + (dedupGo meta l1 seen idx).length)
  | [], l2, seen, idx => by simp [dedupGo, seenAfter]
  | v :: rest, l2, seen, idx => by
    by_cases hv : v.videoId ∈ seen
    · rw [List.cons_append, dedupGo_skip meta (rest ++ l2) idx hv,
        dedupGo_skip meta rest idx hv, seenAfter_skip rest hv]
      exact dedupGo_append meta rest l2 seen idx
    · rw [List.cons_append, dedupGo_keep meta (rest ++ l2) idx hv,
        dedupGo_keep meta rest idx hv, seenAfter_keep rest hv,
        dedupGo_append meta rest l2 (v.videoId :: seen) (idx + 1)]
      simp only [List.cons_append, List.length_cons]
      have harith : idx + 1 + (dedupGo meta rest (v.videoId :: seen) (idx + 1)).length =
          idx + ((dedupGo meta rest (v.videoId :: seen) (idx + 1)).length + 1) := by omega
      rw [harith]

theorem seenAfter_sub : ∀ (l : List RawVideo) (seen : List String) (x : String),
    x ∈ seen → x ∈ seenAfter l seen
  | [], _seen, _x => fun hx => hx
  | v :: rest, seen, x => by
    intro hx
    by_cases hv : v.videoId ∈ seen
    · rw [seenAfter_skip rest hv]
      exact seenAfter_sub rest seen x hx
    · rw [seenAfter_keep rest hv]
      exact seenAfter_sub rest (v.videoId :: seen) x (List.mem_cons_of_mem _ hx)

theorem seenAfter_mem : ∀ (l : List RawVideo) (seen : List String) (v : RawVideo),
    v ∈ l → v.videoId ∈ seenAfter l seen
  | [], _seen, _v => by simp
  | w :: rest, seen, v => by
    intro hv
    rcases List.mem_cons.mp hv with rfl | hv2
    · by_cases hw : v.videoId ∈ seen
      · rw [seenAfter_skip rest hw]
        exact seenAfter_sub rest seen v.videoId hw
      · rw [seenAfter_keep rest hw]
        exact seenAfter_sub rest (v.videoId :: seen) v.videoId (List.mem_cons_self _ _)
    · by_cases hw : w.videoId ∈ seen
      · rw [seenAfter_skip rest hw]
        exact seenAfter_mem rest seen v hv2
      · rw [seenAfter_keep rest hw]
        exact seenAfter_mem rest (w.videoId :: seen) v hv2

theorem dedupGo_all_seen (meta : PlaylistMeta) :
    ∀ (l : List RawVideo) (seen : List String) (idx : Nat),
      (∀ v ∈ l, v.videoId ∈ seen) → dedupGo meta l seen idx = []
  | [], _seen, _idx => by simp [dedupGo]
  | v :: rest, seen, idx => by
    intro hall
    have hv : v.videoId ∈ seen := hall v (List.mem_cons_self _ _)
    rw [dedupGo_skip meta rest idx hv]
    exact dedupGo_all_seen meta rest seen idx (fun w hw => hall w (List.mem_cons_of_mem _ hw))

/-- C7: the deduplicated entry list of a crawl has no two entries with the
same mediaId, its `index` values are exactly 1, 2, 3, … in discovery order,
and feeding the same page sequence through the crawl twice (so that the
accumulated raw list repeats itself) yields exactly the same entry list. -/
theorem playlist_entries_invariants (meta : PlaylistMeta) (all : List RawVideo) :
    ((playlistDedup meta all).map PlaylistVideo.videoId).Nodup ∧
    (playlistDedup meta all).map PlaylistVideo.index =
      List.range' 1 (playlistDedup meta all).length ∧
    playlistDedup meta (all ++ all) = playlistDedup meta all := by
  refine ⟨(dedupGo_ids meta all [] 1).1, dedupGo_index meta all [] 1, ?_⟩
  unfold playlistDedup
  rw [dedupGo_append meta all all [] 1,
    dedupGo_all_seen meta all (seenAfter all []) _ (fun v hv => seenAfter_mem all [] v hv),
    List.append_nil]

theorem charVal_digChar (d : Nat) (hd : d < 10) : charVal (digChar d) = d := by
  interval_cases d <;> decide

theorem digChar_ne_colon (d : Nat) (hd : d < 10) : digChar d ≠ ':' := by
  interval_cases d <;> decide

theorem natToChars_no_colon (n : Nat) : ∀ c ∈ natToChars n, c ≠ ':' := by
  intro c hc
  unfold natToChars at hc
  by_cases h0 : n = 0
  · rw [if_pos h0] at hc
    simp only [List.mem_singleton] at hc
    subst hc; decide
  · rw [if_neg h0] at hc
    simp only [List.mem_map, List.mem_reverse] at hc
    obtain ⟨d, hd, rfl⟩ := hc
    exact digChar_ne_colon d (Nat.digits_lt_base (by norm_num) hd)

theorem padStart2_no_colon (l : List Char) (h : ∀ c ∈ l, c ≠ ':') :
    ∀ c ∈ padStart2 l, c ≠ ':' := by
  intro c hc
  unfold padStart2 at hc
  rcases List.mem_append.mp hc with hrep | hl
  · have := List.eq_of_mem_replicate hrep
    subst this; decide
  · exact h c hl

theorem charsToNat_natToChars (n : Nat) : charsToNat (natToChars n) = n := by
  by_cases h0 : n = 0
  · subst h0; decide
  · unfold charsToNat natToChars
    rw [if_neg h0]
    rw [List.map_reverse, List.map_map]
    have hmap : (Nat.digits 10 n).reverse.map (charVal ∘ digChar) =
        (Nat.digits 10 n).reverse :=
      calc (Nat.digits 10 n).reverse.map (charVal ∘ digChar)
          = (Nat.digits 10 n).reverse.map id := List.map_congr_left
            (fun d hd => charVal_digChar d
              (Nat.digits_lt_base (by norm_num) (List.mem_reverse.mp hd)))
        _ = (Nat.digits 10 n).reverse := List.map_id _
    rw [hmap, List.reverse_reverse, Nat.ofDigits_digits]

theorem ofDigits_replicate_zero (k : Nat) : Nat.ofDigits 10 (List.replicate k 0) = 0 := by
  induction k with
  | zero => simp [Nat.ofDigits_nil]
  | succ m ih => simp [List.replicate, Nat.ofDigits_cons, ih]

theorem charsToNat_pad (l : List Char) : charsToNat (padStart2 l) = charsToNat l := by
  unfold charsToNat padStart2
  rw [List.reverse_append, List.map_append, List.reverse_replicate, List.map_replicate]
  have h0 : charVal '0' = 0 := by decide
  rw [h0, Nat.ofDigits_append, ofDigits_replicate_zero]
  simp

theorem splitOnChar_ne_nil (sep : Char) : ∀ l : List Char, splitOnChar sep l ≠ []
  | [] => by simp [splitOnChar]
  | c :: cs => by
    by_cases hc : c = sep
    · simp [splitOnChar, hc]
    · simp only [splitOnChar]
      rw [if_neg hc]
      cases hs : splitOnChar sep cs with
      | nil => simp
      | cons p ps => simp

theorem splitOnChar_no_sep (sep : Char) : ∀ l : List Char,
    (∀ c ∈ l, c ≠ sep) → splitOnChar sep l = [l]
  | [] => fun _ => rfl
  | c :: cs => by
    intro h
    have hc : ¬ (c = sep) := h c (List.mem_cons_self c cs)
    simp only [splitOnChar]
    rw [if_neg hc, splitOnChar_no_sep sep cs (fun x hx => h x (List.mem_cons_of_mem c hx))]

theorem splitOnChar_append (sep : Char) : ∀ (a b : List Char),
    (∀ c ∈ a, c ≠ sep) → splitOnChar sep (a ++ sep :: b) = a :: splitOnChar sep b
  | [], b => by intro _; simp [splitOnChar]
  | c :: cs, b => by
    intro h
    have hc : ¬ (c = sep) := h c (List.mem_cons_self c cs)
    have ih := splitOnChar_append sep cs b (fun x hx => h x (List.mem_cons_of_mem c hx))
    simp only [List.cons_append, splitOnChar]
    rw [if_neg hc, show (cs.append (sep :: b)) = cs ++ sep :: b from rfl, ih]

/-- C9: formatting a number of seconds with `fmt` (`M:SS`, or `H:MM:SS` when
at least one hour) and then reading the result back with the colon-duration
parsing of `parseVideos` recovers the original number of seconds. -/
theorem fmt_parse_roundtrip (s : Nat) : parseDurationChars (fmtChars s) = s := by
  have hdm := Nat.div_add_mod s 3600
  have hdm2 := Nat.div_add_mod (s % 3600) 60
  have hmod : s % 3600 % 60 = s % 60 := Nat.mod_mod_of_dvd s (by norm_num)
  by_cases hh : s / 3600 > 0
  · have hfmt : fmtChars s =
        natToChars (s / 3600) ++ ':' ::
          (padStart2 (natToChars (s % 3600 / 60)) ++ ':' :: padStart2 (natToChars (s % 60))) := by
      unfold fmtChars
      rw [if_pos hh]
    rw [hfmt]
    unfold parseDurationChars
    rw [splitOnChar_append ':' _ _ (natToChars_no_colon _),
      splitOnChar_append ':' _ _ (padStart2_no_colon _ (natToChars_no_colon _)),
      splitOnChar_no_sep ':' _ (padStart2_no_colon _ (natToChars_no_colon _))]
    simp only [List.map_cons, List.map_nil, charsToNat_natToChars, charsToNat_pad]
    omega
  · have hfmt : fmtChars s =
        natToChars (s % 3600 / 60) ++ ':' :: padStart2 (natToChars (s % 60)) := by
      unfold fmtChars
      rw [if_neg hh]
    rw [hfmt]
    unfold parseDurationChars
    rw [splitOnChar_append ':' _ _ (natToChars_no_colon _),
      splitOnChar_no_sep ':' _ (padStart2_no_colon _ (natToChars_no_colon _))]
    simp only [List.map_cons, List.map_nil, charsToNat_natToChars, charsToNat_pad]
    omega

theorem fetchChunkGo_ok (o : Nat → FetchOut) (s e r attempt st : Nat) (ct : Option String)
    (body : List Nat) (ho : o attempt = .resp st ct body) (h416 : st ≠ 416)
    (hok : jsOk st = true ∨ st = 206) :
    fetchChunkGo o s e r attempt = ⟨.ok body, [⟨some s!"bytes={s}-{e}"⟩], []⟩ := by
  have hcond : (!(jsOk st) && st != 206) = false := by
    rcases hok with h | h
    · rw [h]; rfl
    · subst h; decide
  cases r with
  | zero =>
    simp only [fetchChunkGo, ho]
    rw [if_neg h416, hcond]
    simp
  | succ r2 =>
    simp only [fetchChunkGo, ho]
    rw [if_neg h416, hcond]
    simp

theorem fetchChunkGo_eof (o : Nat → FetchOut) (s e r attempt : Nat) (ct : Option String)
    (body : List Nat) (ho : o attempt = .resp 416 ct body) :
    fetchChunkGo o s e r attempt = ⟨.eof, [⟨some s!"bytes={s}-{e}"⟩], []⟩ := by
  cases r with
  | zero => simp [fetchChunkGo, ho]
  | succ r2 => simp [fetchChunkGo, ho]

theorem fetchChunkGo_retry (o : Nat → FetchOut) (s e r attempt : Nat)
    (htr : isTransient (o attempt) = true) :
    fetchChunkGo o s e (r + 1) attempt =
      ⟨(fetchChunkGo o s e r (attempt + 1)).result,
       ⟨some s!"bytes={s}-{e}"⟩ :: (fetchChunkGo o s e r (attempt + 1)).calls,
       500 * attempt :: (fetchChunkGo o s e r (attempt + 1)).sleeps⟩ := by
  cases hoa : o attempt with
  | threw => simp [fetchChunkGo, hoa]
  | resp st ct body =>
    have h5 : 500 ≤ st := by
      have h := htr
      rw [hoa] at h
      simpa [isTransient] using h
    have h416 : ¬ (st = 416) := by omega
    have hcond : (!(jsOk st) && st != 206) = true := by
      simp [jsOk]
      omega
    simp only [fetchChunkGo, hoa]
    rw [if_neg h416, hcond]
    simp [h5]

theorem fetchChunkGo_zero_record (o : Nat → FetchOut) (s e attempt : Nat) :
    (fetchChunkGo o s e 0 attempt).calls = [⟨some s!"bytes={s}-{e}"⟩] ∧
    (fetchChunkGo o s e 0 attempt).sleeps = [] := by
  cases hoa : o attempt with
  | threw => simp [fetchChunkGo, hoa]
  | resp st ct body =>
    by_cases h416 : st = 416
    · subst h416; simp [fetchChunkGo, hoa]
    · by_cases hbad : (!(jsOk st) && st != 206) = true
      · simp only [fetchChunkGo, hoa]
        rw [if_neg h416, hbad]
        simp
      · rw [Bool.not_eq_true] at hbad
        simp only [fetchChunkGo, hoa]
        rw [if_neg h416, hbad]
        simp

theorem fetchChunkGo_zero_err (o : Nat → FetchOut) (s e attempt : Nat)
    (htr : isTransient (o attempt) = true) :
    (fetchChunkGo o s e 0 attempt).result = .err := by
  cases hoa : o attempt with
  | threw => simp [fetchChunkGo, hoa]
  | resp st ct body =>
    have h5 : 500 ≤ st := by
      have h := htr
      rw [hoa] at h
      simpa [isTransient] using h
    have h416 : ¬ (st = 416) := by omega
    have hcond : (!(jsOk st) && st != 206) = true := by
      simp [jsOk]
      omega
    simp only [fetchChunkGo, hoa]
    rw [if_neg h416, hcond]
    simp

theorem fetchChunkGo_nontransient_record (o : Nat → FetchOut) (s e attempt r : Nat)
    (hnt : isTransient (o attempt) = false) :
    (fetchChunkGo o s e r attempt).calls = [⟨some s!"bytes={s}-{e}"⟩] ∧
    (fetchChunkGo o s e r attempt).sleeps = [] := by
  cases hoa : o attempt with
  | threw => rw [hoa] at hnt; simp [isTransient] at hnt
  | resp st ct body =>
    have h5 : ¬ (500 ≤ st) := by
      rw [hoa] at hnt
      simpa [isTransient] using hnt
    by_cases h416 : st = 416
    · subst h416
      cases r with
      | zero => simp [fetchChunkGo, hoa]
      | succ r2 => simp [fetchChunkGo, hoa]
    · by_cases hbad : (!(jsOk st) && st != 206) = true
      · cases r with
        | zero =>
          simp only [fetchChunkGo, hoa]
          rw [if_neg h416, hbad]
          simp
        | succ r2 =>
          simp only [fetchChunkGo, hoa]
          rw [if_neg h416, hbad]
          simp [if_neg h5]
      · rw [Bool.not_eq_true] at hbad
        cases r with
        | zero =>
          simp only [fetchChunkGo, hoa]
          rw [if_neg h416, hbad]
          simp
        | succ r2 =>
          simp only [fetchChunkGo, hoa]
          rw [if_neg h416, hbad]
          simp

/-- C8: for every chunk, `fetchChunk` retries the same byte range on a
transient failure (thrown fetch or 5xx) with bounded, growing backoff
(the i-th recorded sleep is 500·2^i ms), makes at most `MAX_CHUNK_RETRIES`
attempts, propagates an error only once all `MAX_CHUNK_RETRIES` attempts
failed transiently, and succeeds with the first non-transient success.  The
budget is per-chunk: `relayLoop` starts every chunk at attempt 1, which is
the entry point this theorem describes. -/
theorem fetchChunk_retry_policy (o : Nat → FetchOut) (start endB : Nat) :
    (∀ u ∈ (fetchChunk o start endB 1).calls, u = ⟨some s!"bytes={start}-{endB}"⟩) ∧
    (fetchChunk o start endB 1).calls.length ≤ MAX_CHUNK_RETRIES ∧
    (fetchChunk o start endB 1).sleeps =
      (List.range ((fetchChunk o start endB 1).calls.length - 1)).map
        (fun i => 500 * 2 ^ i) ∧
    ((∀ a, 1 ≤ a → a ≤ MAX_CHUNK_RETRIES → isTransient (o a) = true) →
      (fetchChunk o start endB 1).result = .err ∧
      (fetchChunk o start endB 1).calls.length = MAX_CHUNK_RETRIES) ∧
    (∀ k st ct body, 1 ≤ k → k ≤ MAX_CHUNK_RETRIES →
      (∀ a, 1 ≤ a → a < k → isTransient (o a) = true) →
      o k = .resp st ct body → st ≠ 416 → jsOk st = true →
      (fetchChunk o start endB 1).result = .ok body ∧
      (fetchChunk o start endB 1).calls.length = k) := by
  have h1 : fetchChunk o start endB 1 = fetchChunkGo o start endB 2 1 := rfl
  by_cases t1 : isTransient (o 1) = true
  · have hstep1 := fetchChunkGo_retry o start endB 1 1 t1
    by_cases t2 : isTransient (o 2) = true
    · have hstep2 := fetchChunkGo_retry o start endB 0 2 t2
      have hrec3 := fetchChunkGo_zero_record o start endB 3
      refine ⟨?_, ?_, ?_, ?_, ?_⟩
      · intro u hu
        rw [h1, hstep1] at hu
        simp only [hstep2, hrec3.1, List.mem_cons, List.not_mem_nil, or_false] at hu
        rcases hu with rfl | rfl | rfl <;> rfl
      · rw [h1, hstep1]
        simp [hstep2, hrec3.1, MAX_CHUNK_RETRIES]
      · rw [h1, hstep1]
        simp only [hstep2, hrec3.1, hrec3.2, List.length_cons, List.length_singleton]
        decide
      · intro hall
        have t3 := hall 3 (by omega) (by simp [MAX_CHUNK_RETRIES])
        constructor
        · rw [h1, hstep1]
          simp only [hstep2]
          exact fetchChunkGo_zero_err o start endB 3 t3
        · rw [h1, hstep1]
          simp [hstep2, hrec3.1, MAX_CHUNK_RETRIES]
      · intro k st ct body hk1 hk3 hprior ho h416 hjs
        have hnt : isTransient (o k) = false := by
          rw [ho]
          simp only [isTransient, decide_eq_false_iff_not]
          simp only [jsOk, decide_eq_true_eq] at hjs
          omega
        have hk : k = 3 := by
          rcases Nat.lt_or_ge k 3 with hlt | hge
          · interval_cases k
            · rw [t1] at hnt; cases hnt
            · rw [t2] at hnt; cases hnt
          · simp only [MAX_CHUNK_RETRIES] at hk3; omega
        subst hk
        have hok3 := fetchChunkGo_ok o start endB 0 3 st ct body ho h416 (Or.inl hjs)
        constructor
        · rw [h1, hstep1]
          simp [hstep2, hok3]
        · rw [h1, hstep1]
          simp [hstep2, hok3]
    · rw [Bool.not_eq_true] at t2
      have hrec2 := fetchChunkGo_nontransient_record o start endB 2 1 t2
      refine ⟨?_, ?_, ?_, ?_, ?_⟩
      · intro u hu
        rw [h1, hstep1] at hu
        simp only [hrec2.1, List.mem_cons, List.not_mem_nil, or_false] at hu
        rcases hu with rfl | rfl <;> rfl
      · rw [h1, hstep1]
        simp [hrec2.1, MAX_CHUNK_RETRIES]
      · rw [h1, hstep1]
        simp only [hrec2.1, hrec2.2, List.length_cons, List.length_singleton]
        decide
      · intro hall
        have := hall 2 (by omega) (by simp [MAX_CHUNK_RETRIES])
        rw [t2] at this
        cases this
      · intro k st ct body hk1 hk3 hprior ho h416 hjs
        have hnt : isTransient (o k) = false := by
          rw [ho]
          simp only [isTransient, decide_eq_false_iff_not]
          simp only [jsOk, decide_eq_true_eq] at hjs
          omega
        have hk : k = 2 := by
          rcases Nat.lt_or_ge k 3 with hlt | hge
          · interval_cases k
            · rw [t1] at hnt; cases hnt
            · rfl
          · exfalso
            have := hprior 2 (by omega) (by omega)
            rw [t2] at this
            cases this
        subst hk
        have hok2 := fetchChunkGo_ok o start endB 1 2 st ct body ho h416 (Or.inl hjs)
        constructor
        · rw [h1, hstep1]
          simp [hok2]
        · rw [h1, hstep1]
          simp [hok2]
  · rw [Bool.not_eq_true] at t1
    have hrec1 := fetchChunkGo_nontransient_record o start endB 1 2 t1
    refine ⟨?_, ?_, ?_, ?_, ?_⟩
    · intro u hu
      rw [h1] at hu
      rw [hrec1.1] at hu
      simpa using hu
    · rw [h1, hrec1.1]
      simp [MAX_CHUNK_RETRIES]
    · rw [h1, hrec1.1, hrec1.2]
      simp
    · intro hall
      have := hall 1 (by omega) (by simp [MAX_CHUNK_RETRIES])
      rw [t1] at this
      cases this
    · intro k st ct body hk1 hk3 hprior ho h416 hjs
      have hnt : isTransient (o k) = false := by
        rw [ho]
        simp only [isTransient, decide_eq_false_iff_not]
        simp only [jsOk, decide_eq_true_eq] at hjs
        omega
      have hk : k = 1 := by
        by_contra hne
        have := hprior 1 (by omega) (by omega)
        rw [t1] at this
        cases this
      subst hk
      have hok1 := fetchChunkGo_ok o start endB 2 1 st ct body ho h416 (Or.inl hjs)
      rw [h1, hok1]
      exact ⟨rfl, rfl⟩

theorem fetchChunk_retry_policy_witness :
    (fetchChunk c8Oracle 0 9 1).result = .ok [7] ∧
    (fetchChunk c8Oracle 0 9 1).calls.length = 2 := by
  refine (fetchChunk_retry_policy c8Oracle 0 9).2.2.2.2 2 200 none [7]
    (by omega) (by decide) ?_ (by decide) (by decide) (by decide)
  intro a h1 h2
  have ha : a = 1 := by omega
  subst ha
  decide

theorem relayLoop_ideal_some (res : List Nat) (e : Nat) (he : e < res.length) :
    ∀ fuel pos, pos ≤ e → e + 1 - pos ≤ fuel →
      (relayLoop (idealChunkO res) (some e) fuel pos).emitted =
        (res.drop pos).take (e + 1 - pos) ∧
      (relayLoop (idealChunkO res) (some e) fuel pos).status = .closed := by
  intro fuel
  induction fuel with
  | zero => intro pos hpos hfuel; omega
  | succ n ih =>
    intro pos hpos hfuel
    have hCpos : 1 ≤ CHUNK_SIZE := by norm_num [CHUNK_SIZE]
    have hplen : pos < res.length := by omega
    have hceval : chunkEndCalc (some e) pos = min (pos + CHUNK_SIZE - 1) e := rfl
    have hcele : chunkEndCalc (some e) pos ≤ e := by rw [hceval]; omega
    have hcege : pos ≤ chunkEndCalc (some e) pos := by rw [hceval]; omega
    have hoideal : idealChunkO res pos (chunkEndCalc (some e) pos) 1 =
        .resp 206 none ((res.drop pos).take (chunkEndCalc (some e) pos + 1 - pos)) := by
      unfold idealChunkO
      rw [if_neg (by omega)]
    have hfc : fetchChunk (fun a => idealChunkO res pos (chunkEndCalc (some e) pos) a)
        pos (chunkEndCalc (some e) pos) 1 =
        ⟨.ok ((res.drop pos).take (chunkEndCalc (some e) pos + 1 - pos)),
         [⟨some s!"bytes={pos}-{chunkEndCalc (some e) pos}"⟩], []⟩ :=
      fetchChunkGo_ok _ pos (chunkEndCalc (some e) pos) 2 1 206 none _ hoideal
        (by omega) (Or.inr rfl)
    have hlen : ((res.drop pos).take (chunkEndCalc (some e) pos + 1 - pos)).length =
        chunkEndCalc (some e) pos + 1 - pos := by
      rw [List.length_take, List.length_drop]
      omega
    simp only [relayLoop, hfc]
    rw [if_neg (by omega : ¬ (((res.drop pos).take (chunkEndCalc (some e) pos + 1 - pos)).length = 0))]
    by_cases hlast : e < pos + CHUNK_SIZE
    · have hcee : chunkEndCalc (some e) pos = e := by rw [hceval]; omega
      have hstop : (decide (e < pos + ((res.drop pos).take (chunkEndCalc (some e) pos + 1 - pos)).length) ||
          decide (((res.drop pos).take (chunkEndCalc (some e) pos + 1 - pos)).length < CHUNK_SIZE)) = true := by
        rw [hlen, hcee]
        simp
        omega
      rw [hstop]
      simp only [if_true]
      rw [hcee]
      exact ⟨rfl, trivial⟩
    · have hcee : chunkEndCalc (some e) pos = pos + CHUNK_SIZE - 1 := by rw [hceval]; omega
      have hlenC : ((res.drop pos).take (chunkEndCalc (some e) pos + 1 - pos)).length = CHUNK_SIZE := by
        rw [hlen]; omega
      have hstop : (decide (e < pos + ((res.drop pos).take (chunkEndCalc (some e) pos + 1 - pos)).length) ||
          decide (((res.drop pos).take (chunkEndCalc (some e) pos + 1 - pos)).length < CHUNK_SIZE)) = false := by
        rw [hlenC]
        simp
        omega
      rw [hstop]
      simp only [Bool.false_eq_true, if_false]
      rw [hlenC]
      have hrest := ih (pos + CHUNK_SIZE) (by omega) (by omega)
      refine ⟨?_, hrest.2⟩
      rw [hrest.1]
      have hsplit : e + 1 - pos = CHUNK_SIZE + (e + 1 - (pos + CHUNK_SIZE)) := by omega
      rw [hsplit, List.take_add, List.drop_drop]
      rw [hcee]
      have : pos + CHUNK_SIZE - 1 + 1 - pos = CHUNK_SIZE := by omega
      rw [this]

theorem relayLoop_ideal_none (res : List Nat) :
    ∀ fuel pos, pos ≤ res.length → res.length + 1 - pos ≤ fuel →
      (relayLoop (idealChunkO res) none fuel pos).emitted = res.drop pos ∧
      (relayLoop (idealChunkO res) none fuel pos).status = .closed := by
  intro fuel
  induction fuel with
  | zero => intro pos hpos hfuel; omega
  | succ n ih =>
    intro pos hpos hfuel
    have hCpos : 1 ≤ CHUNK_SIZE := by norm_num [CHUNK_SIZE]
    rcases Nat.eq_or_lt_of_le hpos with heq | hlt
    · have hoideal : idealChunkO res pos (chunkEndCalc none pos) 1 = .resp 416 none [] := by
        unfold idealChunkO
        rw [if_pos (by omega)]
      have hfc : fetchChunk (fun a => idealChunkO res pos (chunkEndCalc none pos) a)
          pos (chunkEndCalc none pos) 1 =
          ⟨.eof, [⟨some s!"bytes={pos}-{chunkEndCalc none pos}"⟩], []⟩ :=
        fetchChunkGo_eof _ pos (chunkEndCalc none pos) 2 1 none [] hoideal
      simp only [relayLoop, hfc]
      rw [heq, List.drop_length]
      exact ⟨rfl, trivial⟩
    · have hceval : chunkEndCalc none pos = pos + CHUNK_SIZE - 1 := rfl
      have hoideal : idealChunkO res pos (chunkEndCalc none pos) 1 =
          .resp 206 none ((res.drop pos).take (chunkEndCalc none pos + 1 - pos)) := by
        unfold idealChunkO
        rw [if_neg (by omega)]
      have hfc : fetchChunk (fun a => idealChunkO res pos (chunkEndCalc none pos) a)
          pos (chunkEndCalc none pos) 1 =
          ⟨.ok ((res.drop pos).take (chunkEndCalc none pos + 1 - pos)),
           [⟨some s!"bytes={pos}-{chunkEndCalc none pos}"⟩], []⟩ :=
        fetchChunkGo_ok _ pos (chunkEndCalc none pos) 2 1 206 none _ hoideal
          (by omega) (Or.inr rfl)
      have hlen : ((res.drop pos).take (chunkEndCalc none pos + 1 - pos)).length =
          min CHUNK_SIZE (res.length - pos) := by
        rw [List.length_take, List.length_drop, hceval]
        omega
      simp only [relayLoop, hfc]
      rw [if_neg (by omega : ¬ (((res.drop pos).take (chunkEndCalc none pos + 1 - pos)).length = 0))]
      by_cases hlast : res.length - pos < CHUNK_SIZE
      · have hlenv : ((res.drop pos).take (chunkEndCalc none pos + 1 - pos)).length =
            res.length - pos := by rw [hlen]; omega
        have hstop : (false ||
            decide (((res.drop pos).take (chunkEndCalc none pos + 1 - pos)).length < CHUNK_SIZE)) = true := by
          rw [hlenv]
          simp
          omega
        rw [hstop]
        simp only [if_true]
        refine ⟨?_, trivial⟩
        apply List.take_of_length_le
        rw [List.length_drop, hceval]
        omega
      · have hlenv : ((res.drop pos).take (chunkEndCalc none pos + 1 - pos)).length =
            CHUNK_SIZE := by rw [hlen]; omega
        have hstop : (false ||
            decide (((res.drop pos).take (chunkEndCalc none pos + 1 - pos)).length < CHUNK_SIZE)) = false := by
          rw [hlenv]
          simp
        rw [hstop]
        simp only [Bool.false_eq_true, if_false]
        rw [hlenv]
        have hrest := ih (pos + CHUNK_SIZE) (by omega) (by omega)
        refine ⟨?_, hrest.2⟩
        rw [hrest.1]
        have hdd : res.drop (pos + CHUNK_SIZE) = (res.drop pos).drop CHUNK_SIZE := by
          rw [List.drop_drop]
        rw [hdd]
        have htk : (res.drop pos).take (chunkEndCalc none pos + 1 - pos) =
            (res.drop pos).take CHUNK_SIZE := by
          rw [hceval]
          congr 1
          omega
        rw [htk, List.take_append_drop]

/-- C3 (amended): when the probed total size is known and the caller sends
`Range: bytes=S-E` with a window inside the resource (`S ≤ E < total`), the
relay answers 206 with `Content-Range: bytes S-E/total` and streams exactly
the requested window of `E - S + 1` bytes starting at offset `S`; when the
total size is unknown, the caller range is ignored and the relay streams the
whole resource from offset 0 with status 200.  (The source does not clamp
the caller window to the resource size, so the in-bounds hypothesis is
required; see the counterexample.) -/
theorem proxy_caller_range (res : List Nat) (S E total : Nat) (url host ct : String)
    (thumbUp : FetchOut) (fuel : Nat)
    (hallow : isAllowedUrl (some host) = true)
    (hthumb : (jsIncludes url "ytimg.com" || jsIncludes url "/vi/") = false)
    (hSE : S ≤ E) (hE : E < res.length) (htot : total = res.length)
    (hfuel : res.length + 1 ≤ fuel) :
    (proxyGET (some url) (some host) (some (S, some E)) thumbUp (some total) ct
        (idealChunkO res) fuel).1 =
      .success ⟨206, some ct, some ((E : Int) - (S : Int) + 1),
        some s!"bytes {S}-{E}/{total}", true,
        (res.drop S).take (E + 1 - S), .closed⟩ ∧
    ((res.drop S).take (E + 1 - S)).length = E - S + 1 ∧
    (proxyGET (some url) (some host) (some (S, some E)) thumbUp none ct
        (idealChunkO res) fuel).1 =
      .success ⟨200, some ct, none, none, false, res, .closed⟩ := by
  have hlen0 : total ≠ 0 := by omega
  have hrelay := relayLoop_ideal_some res E hE fuel S hSE (by omega)
  refine ⟨?_, ?_, ?_⟩
  · have htt : (total != 0) = true := by simpa using hlen0
    simp only [proxyGET, hallow, Bool.not_true, Bool.false_eq_true, if_false, hthumb,
      Option.getD_some, htt, if_true, Option.getD]
    rw [hrelay.1, hrelay.2]
  · rw [List.length_take, List.length_drop]
    omega
  · have hrelay0 := relayLoop_ideal_none res fuel 0 (by omega) (by omega)
    have hff : (0 != 0) = false := rfl
    simp only [proxyGET, hallow, Bool.not_true, Bool.false_eq_true, if_false, hthumb,
      Option.getD_none, hff]
    rw [hrelay0.1, hrelay0.2, List.drop_zero]

/-- C3 counterexample: a caller range of `bytes=3-9` against a 5-byte
resource is answered with 206 and `Content-Range: bytes 3-9/5` (so the
claim premises hold with S = 3, E = 9, total = 5), but the emitted body is
the 2 bytes `[3, 4]`, not the E - S + 1 = 7 bytes the claim promises. -/
theorem proxy_caller_range_cex :
    ((proxyGET (some "https://rr1---sn-x.googlevideo.com/videoplayback")
        (some "rr1---sn-x.googlevideo.com") (some (3, some 9)) .threw (some 5) "video/mp4"
        (idealChunkO [0, 1, 2, 3, 4]) 8).1 =
      .success ⟨206, some "video/mp4", some 7, some "bytes 3-9/5", true, [3, 4], .closed⟩) ∧
    ¬ (([3, 4] : List Nat).length = 9 - 3 + 1) :=
  ⟨by decide, by decide⟩

theorem proxy_caller_range_witness :
    (proxyGET (some c3Url) (some c3Host) (some (1, some 3)) .threw (some 5) "video/mp4"
        (idealChunkO c3Res) 6).1 =
      .success ⟨206, some "video/mp4", some 3, some "bytes 1-3/5", true,
        [11, 12, 13], .closed⟩ := by
  have h := proxy_caller_range c3Res 1 3 5 c3Url c3Host "video/mp4" .threw 6
    (by decide) (by decide) (by decide) (by decide) (by decide) (by decide)
  exact h.1.trans (by decide)

theorem relayLoop_chunks_eof (o : Nat → Nat → Nat → FetchOut) (endB : Option Nat) :
    ∀ (n : Nat) (c : Nat → List Nat) (fuel p : Nat),
      (∀ e, endB = some e → p + n * CHUNK_SIZE ≤ e) →
      (∀ i, i < n →
        o (p + i * CHUNK_SIZE) (p + i * CHUNK_SIZE + CHUNK_SIZE - 1) 1 =
          .resp 206 none (c i) ∧ (c i).length = CHUNK_SIZE) →
      o (p + n * CHUNK_SIZE) (chunkEndCalc endB (p + n * CHUNK_SIZE)) 1 =
        .resp 416 none [] →
      n + 1 ≤ fuel →
      (relayLoop o endB fuel p).emitted = ((List.range n).map c).join ∧
      (relayLoop o endB fuel p).status = .closed := by
  intro n
  induction n with
  | zero =>
    intro c fuel p hend hok heof hfuel
    cases fuel with
    | zero => omega
    | succ m =>
      simp only [Nat.zero_mul, Nat.add_zero] at heof
      have hfc : fetchChunk (fun a => o p (chunkEndCalc endB p) a) p (chunkEndCalc endB p) 1 =
          ⟨.eof, [⟨some s!"bytes={p}-{chunkEndCalc endB p}"⟩], []⟩ :=
        fetchChunkGo_eof _ p (chunkEndCalc endB p) 2 1 none [] heof
      simp only [relayLoop, hfc]
      exact ⟨by simp, trivial⟩
  | succ m ih =>
    intro c fuel p hend hok heof hfuel
    cases fuel with
    | zero => omega
    | succ fl =>
      have hCpos : 1 ≤ CHUNK_SIZE := by norm_num [CHUNK_SIZE]
      have h0 := hok 0 (Nat.succ_pos m)
      have hne : ¬ ((c 0).length = 0) := by
        rw [h0.2]
        norm_num [CHUNK_SIZE]
      have hs2 : decide ((c 0).length < CHUNK_SIZE) = false := by
        rw [h0.2]
        simp
      cases endB with
      | none =>
        have hce : chunkEndCalc none p = p + CHUNK_SIZE - 1 := rfl
        have h0r : o p (chunkEndCalc none p) 1 = .resp 206 none (c 0) := by
          rw [hce]
          simpa using h0.1
        have hfc : fetchChunk (fun a => o p (chunkEndCalc none p) a) p (chunkEndCalc none p) 1 =
            ⟨.ok (c 0), [⟨some s!"bytes={p}-{chunkEndCalc none p}"⟩], []⟩ :=
          fetchChunkGo_ok _ p (chunkEndCalc none p) 2 1 206 none _ h0r (by omega) (Or.inr rfl)
        simp only [relayLoop, hfc]
        rw [if_neg hne]
        rw [Bool.false_or, hs2]
        simp only [Bool.false_eq_true, if_false]
        rw [h0.2]
        have ihh := ih (fun i => c (i + 1)) fl (p + CHUNK_SIZE)
          (fun e he => by cases he)
          (fun i hi => by
            have h := hok (i + 1) (Nat.succ_lt_succ hi)
            have harr : p + (i + 1) * CHUNK_SIZE = p + CHUNK_SIZE + i * CHUNK_SIZE := by ring
            rw [harr] at h
            exact h)
          (by
            have harr : p + (m + 1) * CHUNK_SIZE = p + CHUNK_SIZE + m * CHUNK_SIZE := by ring
            rw [harr] at heof
            exact heof)
          (by omega)
        refine ⟨?_, ihh.2⟩
        rw [ihh.1, List.range_succ_eq_map, List.map_cons, List.map_map, List.join]
        rfl
      | some e =>
        have hee := hend e rfl
        have hmc : CHUNK_SIZE + m * CHUNK_SIZE = (m + 1) * CHUNK_SIZE := by ring
        have hce : chunkEndCalc (some e) p = p + CHUNK_SIZE - 1 := by
          simp only [chunkEndCalc]
          omega
        have h0r : o p (chunkEndCalc (some e) p) 1 = .resp 206 none (c 0) := by
          rw [hce]
          simpa using h0.1
        have hfc : fetchChunk (fun a => o p (chunkEndCalc (some e) p) a)
            p (chunkEndCalc (some e) p) 1 =
            ⟨.ok (c 0), [⟨some s!"bytes={p}-{chunkEndCalc (some e) p}"⟩], []⟩ :=
          fetchChunkGo_ok _ p (chunkEndCalc (some e) p) 2 1 206 none _ h0r
            (by omega) (Or.inr rfl)
        have hs1 : decide (e < p + (c 0).length) = false := by
          rw [h0.2]
          simp only [decide_eq_false_iff_not]
          omega
        simp only [relayLoop, hfc]
        rw [if_neg hne]
        rw [hs1, hs2]
        simp only [Bool.false_or, Bool.false_eq_true, if_false]
        rw [h0.2]
        have ihh := ih (fun i => c (i + 1)) fl (p + CHUNK_SIZE)
          (fun e2 he2 => by
            cases he2
            omega)
          (fun i hi => by
            have h := hok (i + 1) (Nat.succ_lt_succ hi)
            have harr : p + (i + 1) * CHUNK_SIZE = p + CHUNK_SIZE + i * CHUNK_SIZE := by ring
            rw [harr] at h
            exact h)
          (by
            have harr : p + (m + 1) * CHUNK_SIZE = p + CHUNK_SIZE + m * CHUNK_SIZE := by ring
            rw [harr] at heof
            exact heof)
          (by omega)
        refine ⟨?_, ihh.2⟩
        rw [ihh.1, List.range_succ_eq_map, List.map_cons, List.map_map, List.join]
        rfl

/-- C4: if the upstream answers the K-th chunk request of a relay with HTTP
416 (range not satisfiable) after serving K-1 full chunks, the output stream
ends cleanly carrying exactly the bytes of chunks 1..K-1 in order, and the
stream outcome is the clean close, not an error. -/
theorem relay_eof_clean (o : Nat → Nat → Nat → FetchOut) (endB : Option Nat)
    (c : Nat → List Nat) (K fuel : Nat) (hK : 1 ≤ K) (hfuel : K ≤ fuel)
    (hend : ∀ e, endB = some e → (K - 1) * CHUNK_SIZE ≤ e)
    (hok : ∀ i, i < K - 1 →
      o (i * CHUNK_SIZE) (i * CHUNK_SIZE + CHUNK_SIZE - 1) 1 = .resp 206 none (c i) ∧
      (c i).length = CHUNK_SIZE)
    (heof : o ((K - 1) * CHUNK_SIZE) (chunkEndCalc endB ((K - 1) * CHUNK_SIZE)) 1 =
      .resp 416 none []) :
    (relayLoop o endB fuel 0).emitted = ((List.range (K - 1)).map c).join ∧
    (relayLoop o endB fuel 0).status = .closed := by
  apply relayLoop_chunks_eof o endB (K - 1) c fuel 0
  · intro e he
    simpa using hend e he
  · intro i hi
    simpa using hok i hi
  · simpa using heof
  · omega

theorem relay_eof_clean_witness :
    (relayLoop c4Oracle none 1 0).emitted =
      ((List.range 0).map (fun _ => ([] : List Nat))).join ∧
    (relayLoop c4Oracle none 1 0).status = .closed := by
  exact relay_eof_clean c4Oracle none (fun _ => []) 1 1 (by omega) (by omega)
    (fun e he => by cases he) (fun i hi => absurd hi (by omega)) (by decide)
